import Mathlib

/-!
Shallow embedding of the cachelab cache simulator (final draft of `csim.c`).

The simulator replays a memory-access trace against a set-associative cache
with strict LRU replacement per set.  Each cache set is the list of resident
lines ordered from least-recently-used (front) to most-recently-used (back),
mirroring the doubly linked list of the C code (`head->next` is the LRU line,
`tail->prev` the MRU line).  A line carries a tag and a dirty bit.  The
statistics record mirrors `csim_stats_t`; `dirty_bytes` is carried as an
integer so that the C subtraction on a dirty eviction is the true subtraction.
-/

namespace CacheSim

/-- Memory operation of a trace record: `L` (load) or `S` (store). -/
inductive Op where
  | load : Op
  | store : Op
deriving DecidableEq, Repr

/-- One cache line: the node of the doubly linked list (`struct DLLNode`),
keeping its `tag` and `dirty` fields. -/
structure Node where
  tag : Nat
  dirty : Bool
deriving DecidableEq, Repr

/-- The statistics accumulator, mirroring `csim_stats_t` / `myStats`. -/
structure CsimStats where
  hits : Nat
  misses : Nat
  evictions : Nat
  dirty_bytes : Int
  dirty_evictions : Nat
deriving DecidableEq, Repr

/-- The validated cache geometry: `-s` (set index bits), `-b` (block offset
bits) and `-E` (lines per set), after `main` has checked them nonnegative. -/
structure Geometry where
  setBit : Nat
  blockBit : Nat
  linesPerSet : Nat
deriving DecidableEq, Repr

/-- The mutable state of the simulator: the array of per-set LRU lists
(`DLL* cache`, indexed by set number) together with the statistics. -/
structure CacheState where
  cache : Nat → List Node
  stats : CsimStats

/-- `thisTag = address >> (setBit + blockBit)` of `cacheOperation`. -/
def decodeTag (g : Geometry) (address : Nat) : Nat :=
  address >>> (g.setBit + g.blockBit)

/-- `thisSetNum = (address >> blockBit) & ((1L << setBit) - 1L)` of
`cacheOperation`. -/
def decodeSetNum (g : Geometry) (address : Nat) : Nat :=
  (address >>> g.blockBit) &&& ((1 <<< g.setBit) - 1)

/-- `blockByteNum = 1L << blockBit` of `cacheOperation`. -/
def blockByteNum (g : Geometry) : Nat :=
  1 <<< g.blockBit

/-- Store a new list of lines at one set index of the cache array. -/
def updateCache (c : Nat → List Node) (i : Nat) (v : List Node) : Nat → List Node :=
  fun j => if j = i then v else c j

/-- One step of the simulator: the body of `cacheOperation(op, address, block)`
from the final draft.  The `block` (access size) argument of the C function is
unused by the cache model, so it is omitted.  Branches in order: cold miss
(empty set), hit (tag match, with the dirty-bit guard on a store hit), miss
with eviction (set at capacity), miss without eviction. -/
def cacheOperation (g : Geometry) (op : Op) (address : Nat) (st : CacheState) : CacheState :=
  let thisTag := decodeTag g address
  let thisSetNum := decodeSetNum g address
  let B : Int := (blockByteNum g : Int)
  match st.cache thisSetNum with
  | [] =>
      { cache := updateCache st.cache thisSetNum [⟨thisTag, decide (op = Op.store)⟩]
        stats := { st.stats with
          misses := st.stats.misses + 1
          dirty_bytes := st.stats.dirty_bytes + (if op = Op.store then B else 0) } }
  | first :: rest =>
      let s := first :: rest
      match s.find? (fun n => decide (n.tag = thisTag)) with
      | some curr =>
          { cache := updateCache st.cache thisSetNum
              ((s.eraseP (fun n => decide (n.tag = thisTag))) ++
                [⟨curr.tag, curr.dirty || decide (op = Op.store)⟩])
            stats := { st.stats with
              hits := st.stats.hits + 1
              dirty_bytes := st.stats.dirty_bytes +
                (if op = Op.store ∧ curr.dirty = false then B else 0) } }
      | none =>
          let stats1 := { st.stats with
            misses := st.stats.misses + 1
            dirty_bytes := st.stats.dirty_bytes + (if op = Op.store then B else 0) }
          if s.length = g.linesPerSet then
            { cache := updateCache st.cache thisSetNum
                (rest ++ [⟨thisTag, decide (op = Op.store)⟩])
              stats := { stats1 with
                evictions := stats1.evictions + 1
                dirty_evictions := stats1.dirty_evictions +
                  (if first.dirty then blockByteNum g else 0)
                dirty_bytes := stats1.dirty_bytes - (if first.dirty then B else 0) } }
          else
            { cache := updateCache st.cache thisSetNum
                (s ++ [⟨thisTag, decide (op = Op.store)⟩])
              stats := stats1 }

/-- The empty cache produced by `initializeCache`: every set list is empty and
all five counters start at zero. -/
def initializeCache : CacheState :=
  { cache := fun _ => []
    stats := { hits := 0, misses := 0, evictions := 0, dirty_bytes := 0, dirty_evictions := 0 } }

/-- The replay loop of `mainProcess`: feed each validated trace record to
`cacheOperation` in file order, starting from the empty cache. -/
def mainProcess (g : Geometry) (trace : List (Op × Nat)) : CacheState :=
  trace.foldl (fun st r => cacheOperation g r.1 r.2 st) initializeCache

/-- The per-access outcome reported in verbose mode. -/
inductive AccessOutcome where
  | ColdMiss : AccessOutcome
  | Hit : AccessOutcome
  | MissNoEviction : AccessOutcome
  | MissWithEviction : AccessOutcome
deriving DecidableEq, Repr

/-- The classification printed by `cacheOperation` in verbose mode, following
exactly the same branch structure as the state update. -/
def classifyAccess (g : Geometry) (address : Nat) (st : CacheState) : AccessOutcome :=
  let thisTag := decodeTag g address
  match st.cache (decodeSetNum g address) with
  | [] => AccessOutcome.ColdMiss
  | first :: rest =>
      let s := first :: rest
      match s.find? (fun n => decide (n.tag = thisTag)) with
      | some _ => AccessOutcome.Hit
      | none =>
          if s.length = g.linesPerSet then AccessOutcome.MissWithEviction
          else AccessOutcome.MissNoEviction

/-- The argument check of `main`: `quit == 1 || setBit < 0 || blockBit < 0 ||
linesPerSet <= 0 || fileName[0] == 0 || setBit + blockBit >= 64`.  `true`
means the run is rejected (usage message, exit status 1) before the cache is
built. -/
def mainArgCheck (quit : Bool) (setBit blockBit linesPerSet : Int)
    (fileNameEmpty : Bool) : Bool :=
  quit || decide (setBit < 0) || decide (blockBit < 0) || decide (linesPerSet ≤ 0) ||
    fileNameEmpty || decide (setBit + blockBit ≥ 64)

/-- The control flow of `main` around the replay: on a failed argument check
it returns exit status 1 without constructing the cache or replaying anything;
otherwise it builds the cache, replays the trace and reports the statistics
with exit status 0. -/
def mainSim (quit : Bool) (setBit blockBit linesPerSet : Int) (fileNameEmpty : Bool)
    (trace : List (Op × Nat)) : Nat × Option CsimStats :=
  if mainArgCheck quit setBit blockBit linesPerSet fileNameEmpty then
    (1, none)
  else
    (0, some (mainProcess ⟨setBit.toNat, blockBit.toNat, linesPerSet.toNat⟩ trace).stats)

/-- The tags of the lines resident in one set, in LRU-to-MRU order. -/
def tags (l : List Node) : List Nat := l.map Node.tag

/-- If `find?` locates `a`, the list splits as `l₁ ++ a :: l₂` with no match in
`l₁`, and `eraseP` removes exactly that occurrence. -/
theorem find_eraseP_split {α : Type} (p : α → Bool) :
    ∀ (l : List α) (a : α), l.find? p = some a →
      ∃ l₁ l₂, l = l₁ ++ a :: l₂ ∧ (∀ x ∈ l₁, p x = false) ∧ p a = true ∧
        l.eraseP p = l₁ ++ l₂ := by
  intro l
  induction l with
  | nil => intro a h; simp at h
  | cons b l ih =>
      intro a h
      cases hpb : p b with
      | true =>
          rw [List.find?_cons_of_pos _ hpb] at h
          cases h
          exact ⟨[], l, by simp, by simp, hpb, by simp [List.eraseP_cons, hpb]⟩
      | false =>
          rw [List.find?_cons_of_neg _ (by simp [hpb])] at h
          obtain ⟨l₁, l₂, hl, hl₁, hpa, he⟩ := ih a h
          exact ⟨b :: l₁, l₂, by simp [hl], by
            intro x hx
            rcases List.mem_cons.mp hx with hx | hx
            · exact hx ▸ hpb
            · exact hl₁ x hx, hpa, by simp [List.eraseP_cons, hpb, he]⟩

/-- Branch equation: cold miss (the addressed set is empty). -/
theorem cacheOperation_empty (g : Geometry) (op : Op) (address : Nat) (st : CacheState)
    (h : st.cache (decodeSetNum g address) = []) :
    cacheOperation g op address st =
      { cache := updateCache st.cache (decodeSetNum g address)
          [⟨decodeTag g address, decide (op = Op.store)⟩]
        stats := { st.stats with
          misses := st.stats.misses + 1
          dirty_bytes := st.stats.dirty_bytes +
            (if op = Op.store then (blockByteNum g : Int) else 0) } } := by
  unfold cacheOperation
  simp only [h]

/-- Branch equation: hit (the addressed set holds a line with the decoded
tag; `curr` is the first such line). -/
theorem cacheOperation_hit (g : Geometry) (op : Op) (address : Nat) (st : CacheState)
    (curr : Node)
    (h : (st.cache (decodeSetNum g address)).find?
        (fun n => decide (n.tag = decodeTag g address)) = some curr) :
    cacheOperation g op address st =
      { cache := updateCache st.cache (decodeSetNum g address)
          (((st.cache (decodeSetNum g address)).eraseP
              (fun n => decide (n.tag = decodeTag g address))) ++
            [⟨curr.tag, curr.dirty || decide (op = Op.store)⟩])
        stats := { st.stats with
          hits := st.stats.hits + 1
          dirty_bytes := st.stats.dirty_bytes +
            (if op = Op.store ∧ curr.dirty = false then (blockByteNum g : Int) else 0) } } := by
  cases hcs : st.cache (decodeSetNum g address) with
  | nil => rw [hcs] at h; simp at h
  | cons first rest =>
      rw [hcs] at h
      unfold cacheOperation
      simp only [hcs, h]

/-- Branch equation: miss with eviction (no tag match, set at capacity).
The LRU front line `first` is evicted. -/
theorem cacheOperation_miss_evict (g : Geometry) (op : Op) (address : Nat) (st : CacheState)
    (first : Node) (rest : List Node)
    (hcs : st.cache (decodeSetNum g address) = first :: rest)
    (hfind : (first :: rest).find? (fun n => decide (n.tag = decodeTag g address)) = none)
    (hlen : (first :: rest).length = g.linesPerSet) :
    cacheOperation g op address st =
      { cache := updateCache st.cache (decodeSetNum g address)
          (rest ++ [⟨decodeTag g address, decide (op = Op.store)⟩])
        stats := { st.stats with
          misses := st.stats.misses + 1
          evictions := st.stats.evictions + 1
          dirty_evictions := st.stats.dirty_evictions +
            (if first.dirty then blockByteNum g else 0)
          dirty_bytes := st.stats.dirty_bytes +
            (if op = Op.store then (blockByteNum g : Int) else 0) -
            (if first.dirty then (blockByteNum g : Int) else 0) } } := by
  unfold cacheOperation
  simp only [hcs, hfind, hlen, if_pos rfl, if_true]

/-- Branch equation: miss without eviction (no tag match, set non-empty and
below capacity). -/
theorem cacheOperation_miss_noevict (g : Geometry) (op : Op) (address : Nat) (st : CacheState)
    (first : Node) (rest : List Node)
    (hcs : st.cache (decodeSetNum g address) = first :: rest)
    (hfind : (first :: rest).find? (fun n => decide (n.tag = decodeTag g address)) = none)
    (hlen : (first :: rest).length ≠ g.linesPerSet) :
    cacheOperation g op address st =
      { cache := updateCache st.cache (decodeSetNum g address)
          ((first :: rest) ++ [⟨decodeTag g address, decide (op = Op.store)⟩])
        stats := { st.stats with
          misses := st.stats.misses + 1
          dirty_bytes := st.stats.dirty_bytes +
            (if op = Op.store then (blockByteNum g : Int) else 0) } } := by
  unfold cacheOperation
  simp only [hcs, hfind, if_neg hlen]

/-- C2: for every 64-bit address and every valid geometry (`indexBits ≥ 0`,
`offsetBits ≥ 0`, `indexBits + offsetBits < 64`), the decoder computes
`tag = address >> (indexBits + offsetBits)` — i.e. the address divided by
`2 ^ (indexBits + offsetBits)` — and
`setIndex = (address >> offsetBits) & ((1 << indexBits) - 1)` — i.e. the
shifted address reduced modulo `2 ^ indexBits` — as pure functions of the
address and geometry. -/
theorem decoder_computes_tag_and_setIndex (g : Geometry) (address : Nat)
    (haddr : address < 2 ^ 64) (hgeom : g.setBit + g.blockBit < 64) :
    decodeTag g address = address / 2 ^ (g.setBit + g.blockBit) ∧
    decodeSetNum g address = (address / 2 ^ g.blockBit) % 2 ^ g.setBit := by
  constructor
  · simp [decodeTag, Nat.shiftRight_eq_div_pow]
  · simp [decodeSetNum, Nat.shiftRight_eq_div_pow, Nat.shiftLeft_eq,
      Nat.and_pow_two_sub_one_eq_mod]

/-- Witness for C2 at address 3 with geometry s=1, b=1, E=1. -/
theorem decoder_computes_tag_and_setIndex_witness :
    decodeTag ⟨1, 1, 1⟩ 3 = 3 / 2 ^ (1 + 1) ∧
    decodeSetNum ⟨1, 1, 1⟩ 3 = (3 / 2 ^ 1) % 2 ^ 1 :=
  decoder_computes_tag_and_setIndex ⟨1, 1, 1⟩ 3 (by norm_num) (by norm_num)

/-- C1: on a write hit (a Store whose decoded tag is resident in its set),
`dirty_bytes` grows by exactly `blockByteNum` when the matched line was clean
and is unchanged when the matched line was already dirty; in both cases the
matched line is moved to the MRU end and ends up dirty. -/
theorem store_hit_dirty_accounting (g : Geometry) (st : CacheState) (address : Nat)
    (curr : Node)
    (hfind : (st.cache (decodeSetNum g address)).find?
        (fun n => decide (n.tag = decodeTag g address)) = some curr) :
    (cacheOperation g Op.store address st).stats.dirty_bytes =
      st.stats.dirty_bytes + (if curr.dirty then 0 else (blockByteNum g : Int)) ∧
    ((cacheOperation g Op.store address st).cache (decodeSetNum g address)).getLast? =
      some ⟨curr.tag, true⟩ := by
  rw [cacheOperation_hit g Op.store address st curr hfind]
  constructor
  · cases h : curr.dirty <;> simp [h]
  · simp [updateCache]

/-- Witness for C1: a store hit on a single clean resident line with tag 0. -/
theorem store_hit_dirty_accounting_witness :
    (cacheOperation ⟨0, 0, 1⟩ Op.store 0
        ⟨fun _ => [⟨0, false⟩], ⟨0, 0, 0, 0, 0⟩⟩).stats.dirty_bytes =
      (⟨fun _ => [⟨0, false⟩], ⟨0, 0, 0, 0, 0⟩⟩ : CacheState).stats.dirty_bytes +
        (if (⟨0, false⟩ : Node).dirty then 0 else (blockByteNum ⟨0, 0, 1⟩ : Int)) ∧
    ((cacheOperation ⟨0, 0, 1⟩ Op.store 0
        ⟨fun _ => [⟨0, false⟩], ⟨0, 0, 0, 0, 0⟩⟩).cache
          (decodeSetNum ⟨0, 0, 1⟩ 0)).getLast? = some ⟨(⟨0, false⟩ : Node).tag, true⟩ :=
  store_hit_dirty_accounting ⟨0, 0, 1⟩ ⟨fun _ => [⟨0, false⟩], ⟨0, 0, 0, 0, 0⟩⟩ 0
    ⟨0, false⟩ (by decide)

/-- C8: end-to-end scenario with geometry S=0, E=1, B=0 and trace
`L 0,1 / L 1,1 / L 0,1`: all three accesses map to the one single-line set and
the final statistics are 0 hits, 3 misses and 2 evictions. -/
theorem endToEnd_single_line_three_misses :
    (mainProcess ⟨0, 0, 1⟩ [(Op.load, 0), (Op.load, 1), (Op.load, 0)]).stats.hits = 0 ∧
    (mainProcess ⟨0, 0, 1⟩ [(Op.load, 0), (Op.load, 1), (Op.load, 0)]).stats.misses = 3 ∧
    (mainProcess ⟨0, 0, 1⟩ [(Op.load, 0), (Op.load, 1), (Op.load, 0)]).stats.evictions = 2 := by
  exact ⟨rfl, rfl, rfl⟩

/-- C3: LRU replacement order.  Starting from an empty cache with one set of
associativity 3, loading the distinct tags A, B, C, A, D causes exactly one
eviction, and the evicted tag is B: the final set holds C, A, D in LRU order,
and B is no longer resident. -/
theorem lru_evicts_second_tag (A B C D : Nat) (hAB : A ≠ B) (hAC : A ≠ C) (hAD : A ≠ D)
    (hBC : B ≠ C) (hBD : B ≠ D) (hCD : C ≠ D) :
    (mainProcess ⟨0, 0, 3⟩
        [(Op.load, A), (Op.load, B), (Op.load, C), (Op.load, A), (Op.load, D)]).stats.evictions
      = 1 ∧
    tags ((mainProcess ⟨0, 0, 3⟩
        [(Op.load, A), (Op.load, B), (Op.load, C), (Op.load, A), (Op.load, D)]).cache 0)
      = [C, A, D] ∧
    B ∉ tags ((mainProcess ⟨0, 0, 3⟩
        [(Op.load, A), (Op.load, B), (Op.load, C), (Op.load, A), (Op.load, D)]).cache 0) := by
  refine ⟨?_, ?_, ?_⟩ <;>
    simp [mainProcess, cacheOperation, decodeTag, decodeSetNum, blockByteNum, updateCache,
      initializeCache, tags, List.find?, List.eraseP_cons, Nat.shiftRight_zero,
      Nat.shiftLeft_eq, Nat.and_zero, hAB, hAC, hAD, hBC, hBD, hCD,
      Ne.symm hAB, Ne.symm hBC, Ne.symm hBD]

/-- Witness for C3 with tags A, B, C, D = 0, 1, 2, 3. -/
theorem lru_evicts_second_tag_witness :
    (mainProcess ⟨0, 0, 3⟩
        [(Op.load, 0), (Op.load, 1), (Op.load, 2), (Op.load, 0), (Op.load, 3)]).stats.evictions
      = 1 ∧
    tags ((mainProcess ⟨0, 0, 3⟩
        [(Op.load, 0), (Op.load, 1), (Op.load, 2), (Op.load, 0), (Op.load, 3)]).cache 0)
      = [2, 0, 3] ∧
    (1 : Nat) ∉ tags ((mainProcess ⟨0, 0, 3⟩
        [(Op.load, 0), (Op.load, 1), (Op.load, 2), (Op.load, 0), (Op.load, 3)]).cache 0) :=
  lru_evicts_second_tag 0 1 2 3 (by decide) (by decide) (by decide) (by decide) (by decide)
    (by decide)

/-- C7: an access whose decoded tag is not resident in its set is never a
hit: `hits` is unchanged by the access, the outcome is never classified
`Hit`, and if the set is empty the outcome is classified `ColdMiss`. -/
theorem first_access_never_hit (g : Geometry) (op : Op) (address : Nat) (st : CacheState)
    (h : decodeTag g address ∉ tags (st.cache (decodeSetNum g address))) :
    (cacheOperation g op address st).stats.hits = st.stats.hits ∧
    (cacheOperation g op address st).stats.misses = st.stats.misses + 1 ∧
    classifyAccess g address st ≠ AccessOutcome.Hit ∧
    (st.cache (decodeSetNum g address) = [] →
      classifyAccess g address st = AccessOutcome.ColdMiss) := by
  have hfind : (st.cache (decodeSetNum g address)).find?
      (fun n => decide (n.tag = decodeTag g address)) = none := by
    rw [List.find?_eq_none]
    intro x hx
    simp only [decide_eq_true_eq]
    intro hxe
    exact h (by simpa [tags, hxe] using List.mem_map_of_mem Node.tag hx)
  cases hcs : st.cache (decodeSetNum g address) with
  | nil =>
      refine ⟨?_, ?_, ?_, fun _ => ?_⟩
      · rw [cacheOperation_empty g op address st hcs]
      · rw [cacheOperation_empty g op address st hcs]
      · simp [classifyAccess, hcs]
      · simp [classifyAccess, hcs]
  | cons first rest =>
      rw [hcs] at hfind
      have hclassify : classifyAccess g address st ≠ AccessOutcome.Hit := by
        simp only [classifyAccess, hcs, hfind]
        split <;> simp
      refine ⟨?_, ?_, hclassify, fun hemp => ?_⟩
      · by_cases hlen : (first :: rest).length = g.linesPerSet
        · rw [cacheOperation_miss_evict g op address st first rest hcs hfind hlen]
        · rw [cacheOperation_miss_noevict g op address st first rest hcs hfind hlen]
      · by_cases hlen : (first :: rest).length = g.linesPerSet
        · rw [cacheOperation_miss_evict g op address st first rest hcs hfind hlen]
        · rw [cacheOperation_miss_noevict g op address st first rest hcs hfind hlen]
      · simp at hemp

/-- Witness for C7: a load to the empty cache. -/
theorem first_access_never_hit_witness :
    (cacheOperation ⟨0, 0, 1⟩ Op.load 0 initializeCache).stats.hits =
      initializeCache.stats.hits ∧
    (cacheOperation ⟨0, 0, 1⟩ Op.load 0 initializeCache).stats.misses =
      initializeCache.stats.misses + 1 ∧
    classifyAccess ⟨0, 0, 1⟩ 0 initializeCache ≠ AccessOutcome.Hit ∧
    (initializeCache.cache (decodeSetNum ⟨0, 0, 1⟩ 0) = [] →
      classifyAccess ⟨0, 0, 1⟩ 0 initializeCache = AccessOutcome.ColdMiss) :=
  first_access_never_hit ⟨0, 0, 1⟩ Op.load 0 initializeCache (by decide)

/-- C9: `main` rejects (usage message, exit status 1, no cache construction
and no replay) every configuration with negative index bits, negative offset
bits, non-positive associativity, or `indexBits + offsetBits ≥ 64`; and with
no other failure (no bad flag, trace file name present) it accepts every
geometry with `indexBits ≥ 0`, `offsetBits ≥ 0`, `associativity > 0` and
`indexBits + offsetBits < 64`, replaying the whole trace with exit status 0. -/
theorem config_validation_gates_replay (quit : Bool) (setBit blockBit linesPerSet : Int)
    (fileNameEmpty : Bool) (trace : List (Op × Nat)) :
    ((setBit < 0 ∨ blockBit < 0 ∨ linesPerSet ≤ 0 ∨ setBit + blockBit ≥ 64) →
      mainSim quit setBit blockBit linesPerSet fileNameEmpty trace = (1, none)) ∧
    (0 ≤ setBit → 0 ≤ blockBit → 0 < linesPerSet → setBit + blockBit < 64 →
      quit = false → fileNameEmpty = false →
      mainSim quit setBit blockBit linesPerSet fileNameEmpty trace =
        (0, some (mainProcess ⟨setBit.toNat, blockBit.toNat, linesPerSet.toNat⟩
            trace).stats)) := by
  constructor
  · intro h
    have hc : mainArgCheck quit setBit blockBit linesPerSet fileNameEmpty = true := by
      rcases h with h | h | h | h <;> simp [mainArgCheck, h]
    simp [mainSim, hc]
  · intro h1 h2 h3 h4 h5 h6
    have hc : mainArgCheck quit setBit blockBit linesPerSet fileNameEmpty = false := by
      simp only [mainArgCheck, h5, h6, Bool.false_or, Bool.or_false,
        Bool.or_eq_false_iff, decide_eq_false_iff_not]
      refine ⟨⟨⟨by omega, by omega⟩, by omega⟩, by omega⟩
    simp [mainSim, hc]

/-- Witness for C9: geometry s=-1 is rejected with no replay; geometry
s=1, b=1, E=1 with a trace file present is accepted with exit status 0. -/
theorem config_validation_gates_replay_witness :
    mainSim false (-1) 0 1 false [] = (1, none) ∧
    mainSim false 1 1 1 false [] =
      (0, some (mainProcess ⟨(1 : Int).toNat, (1 : Int).toNat, (1 : Int).toNat⟩ []).stats) :=
  ⟨(config_validation_gates_replay false (-1) 0 1 false []).1 (Or.inl (by norm_num)),
   (config_validation_gates_replay false 1 1 1 false []).2 (by norm_num) (by norm_num)
     (by norm_num) (by norm_num) rfl rfl⟩

/-- Per-access statistics effect: every access is either a hit (`hits` +1,
`misses` and `evictions` unchanged) or a miss (`misses` +1, `hits` unchanged,
`evictions` unchanged or +1). -/
theorem cacheOperation_stats_cases (g : Geometry) (op : Op) (address : Nat) (st : CacheState) :
    ((cacheOperation g op address st).stats.hits = st.stats.hits + 1 ∧
     (cacheOperation g op address st).stats.misses = st.stats.misses ∧
     (cacheOperation g op address st).stats.evictions = st.stats.evictions) ∨
    ((cacheOperation g op address st).stats.hits = st.stats.hits ∧
     (cacheOperation g op address st).stats.misses = st.stats.misses + 1 ∧
     ((cacheOperation g op address st).stats.evictions = st.stats.evictions ∨
      (cacheOperation g op address st).stats.evictions = st.stats.evictions + 1)) := by
  cases hcs : st.cache (decodeSetNum g address) with
  | nil =>
      rw [cacheOperation_empty g op address st hcs]
      exact Or.inr ⟨rfl, rfl, Or.inl rfl⟩
  | cons first rest =>
      cases hfind : (first :: rest).find? (fun n => decide (n.tag = decodeTag g address)) with
      | some curr =>
          rw [cacheOperation_hit g op address st curr (by rw [hcs]; exact hfind)]
          exact Or.inl ⟨rfl, rfl, rfl⟩
      | none =>
          by_cases hlen : (first :: rest).length = g.linesPerSet
          · rw [cacheOperation_miss_evict g op address st first rest hcs hfind hlen]
            exact Or.inr ⟨rfl, rfl, Or.inr rfl⟩
          · rw [cacheOperation_miss_noevict g op address st first rest hcs hfind hlen]
            exact Or.inr ⟨rfl, rfl, Or.inl rfl⟩

/-- Replaying a trace from any state adds the trace length to
`hits + misses`, and preserves `evictions ≤ misses`. -/
theorem replay_stats_accumulate (g : Geometry) :
    ∀ (trace : List (Op × Nat)) (st : CacheState),
      (trace.foldl (fun st r => cacheOperation g r.1 r.2 st) st).stats.hits +
        (trace.foldl (fun st r => cacheOperation g r.1 r.2 st) st).stats.misses =
        st.stats.hits + st.stats.misses + trace.length ∧
      (st.stats.evictions ≤ st.stats.misses →
        (trace.foldl (fun st r => cacheOperation g r.1 r.2 st) st).stats.evictions ≤
          (trace.foldl (fun st r => cacheOperation g r.1 r.2 st) st).stats.misses) := by
  intro trace
  induction trace with
  | nil => intro st; simp
  | cons r trace ih =>
      intro st
      simp only [List.foldl_cons, List.length_cons]
      obtain ⟨ih1, ih2⟩ := ih (cacheOperation g r.1 r.2 st)
      rcases cacheOperation_stats_cases g r.1 r.2 st with ⟨h1, h2, h3⟩ | ⟨h1, h2, h3⟩
      · exact ⟨by omega, fun he => ih2 (by omega)⟩
      · rcases h3 with h3 | h3
        · exact ⟨by omega, fun he => ih2 (by omega)⟩
        · exact ⟨by omega, fun he => ih2 (by omega)⟩

/-- C10: every access increments exactly one of `hits` and `misses` by one
and leaves the other unchanged; hence after replaying any trace from the
empty cache `hits + misses` equals the number of records processed, and
`evictions` never exceeds `misses`. -/
theorem access_counts_partition (g : Geometry) :
    (∀ (op : Op) (address : Nat) (st : CacheState),
      ((cacheOperation g op address st).stats.hits = st.stats.hits + 1 ∧
       (cacheOperation g op address st).stats.misses = st.stats.misses) ∨
      ((cacheOperation g op address st).stats.hits = st.stats.hits ∧
       (cacheOperation g op address st).stats.misses = st.stats.misses + 1)) ∧
    ∀ trace : List (Op × Nat),
      (mainProcess g trace).stats.hits + (mainProcess g trace).stats.misses = trace.length ∧
      (mainProcess g trace).stats.evictions ≤ (mainProcess g trace).stats.misses := by
  constructor
  · intro op address st
    rcases cacheOperation_stats_cases g op address st with ⟨h1, h2, _⟩ | ⟨h1, h2, _⟩
    · exact Or.inl ⟨h1, h2⟩
    · exact Or.inr ⟨h1, h2⟩
  · intro trace
    obtain ⟨h1, h2⟩ := replay_stats_accumulate g trace initializeCache
    refine ⟨?_, ?_⟩
    · simpa [mainProcess, initializeCache] using h1
    · simpa [mainProcess] using h2 (by simp [initializeCache])

/-- One access keeps every set's size within `linesPerSet`, provided
`linesPerSet` is positive. -/
theorem capacity_step (g : Geometry) (op : Op) (address : Nat) (st : CacheState)
    (hE : 0 < g.linesPerSet)
    (h : ∀ i, (st.cache i).length ≤ g.linesPerSet) :
    ∀ i, ((cacheOperation g op address st).cache i).length ≤ g.linesPerSet := by
  intro i
  by_cases hi : i = decodeSetNum g address
  case neg =>
    cases hcs : st.cache (decodeSetNum g address) with
    | nil =>
        rw [cacheOperation_empty g op address st hcs]
        simpa [updateCache, hi] using h i
    | cons first rest =>
        cases hfind : (first :: rest).find? (fun n => decide (n.tag = decodeTag g address)) with
        | some curr =>
            rw [cacheOperation_hit g op address st curr (by rw [hcs]; exact hfind)]
            simpa [updateCache, hi] using h i
        | none =>
            by_cases hlen : (first :: rest).length = g.linesPerSet
            · rw [cacheOperation_miss_evict g op address st first rest hcs hfind hlen]
              simpa [updateCache, hi] using h i
            · rw [cacheOperation_miss_noevict g op address st first rest hcs hfind hlen]
              simpa [updateCache, hi] using h i
  case pos =>
    subst hi
    cases hcs : st.cache (decodeSetNum g address) with
    | nil =>
        rw [cacheOperation_empty g op address st hcs]
        simpa [updateCache] using hE
    | cons first rest =>
        cases hfind : (first :: rest).find? (fun n => decide (n.tag = decodeTag g address)) with
        | some curr =>
            rw [cacheOperation_hit g op address st curr (by rw [hcs]; exact hfind)]
            obtain ⟨l₁, l₂, hl, _, _, he⟩ :=
              find_eraseP_split (fun n => decide (n.tag = decodeTag g address))
                (first :: rest) curr hfind
            have hlen := h (decodeSetNum g address)
            rw [hcs, hl] at hlen
            simp only [updateCache, if_pos rfl, if_true, eq_self_iff_true, hcs, he,
              List.length_append, List.length_cons, List.length_singleton, List.length_nil]
            simp [List.length_append, List.length_cons] at hlen
            omega
        | none =>
            by_cases hlen : (first :: rest).length = g.linesPerSet
            · rw [cacheOperation_miss_evict g op address st first rest hcs hfind hlen]
              simp only [updateCache, if_pos rfl, if_true, eq_self_iff_true,
                List.length_append, List.length_singleton]
              simp only [List.length_cons] at hlen
              omega
            · rw [cacheOperation_miss_noevict g op address st first rest hcs hfind hlen]
              have hle := h (decodeSetNum g address)
              rw [hcs] at hle
              simp only [updateCache, if_pos rfl, if_true, eq_self_iff_true,
                List.length_append, List.length_singleton]
              simp only [List.length_cons] at hlen hle ⊢
              omega

/-- C5: capacity invariant — for every geometry with positive associativity
and every trace replayed from the empty cache, every set holds at most
`linesPerSet` lines. -/
theorem capacity_invariant (g : Geometry) (hE : 0 < g.linesPerSet)
    (trace : List (Op × Nat)) :
    ∀ i, ((mainProcess g trace).cache i).length ≤ g.linesPerSet := by
  have main : ∀ (trace : List (Op × Nat)) (st : CacheState),
      (∀ i, (st.cache i).length ≤ g.linesPerSet) →
      ∀ i, ((trace.foldl (fun st r => cacheOperation g r.1 r.2 st) st).cache i).length ≤
        g.linesPerSet := by
    intro trace
    induction trace with
    | nil => intro st h; simpa using h
    | cons r trace ih =>
        intro st h
        simp only [List.foldl_cons]
        exact ih (cacheOperation g r.1 r.2 st) (capacity_step g r.1 r.2 st hE h)
  exact main trace initializeCache (by simp [initializeCache])

/-- Witness for C5: one load into a direct-mapped single-set cache. -/
theorem capacity_invariant_witness :
    ((mainProcess ⟨0, 0, 1⟩ [(Op.load, 0)]).cache 0).length ≤
      (⟨0, 0, 1⟩ : Geometry).linesPerSet :=
  capacity_invariant ⟨0, 0, 1⟩ (by decide) [(Op.load, 0)] 0

/-- Appending a line whose tag is fresh preserves distinctness of tags. -/
theorem nodup_tags_append_singleton (l : List Node) (x : Node)
    (hl : (tags l).Nodup) (hx : ∀ n ∈ l, ¬ n.tag = x.tag) :
    (tags (l ++ [x])).Nodup := by
  simp only [tags, List.map_append, List.map_singleton]
  rw [List.nodup_append]
  refine ⟨hl, List.nodup_singleton _, ?_⟩
  intro a ha hb
  simp only [List.mem_singleton] at hb
  obtain ⟨n, hn, rfl⟩ := List.mem_map.mp ha
  exact hx n hn hb

/-- One access preserves pairwise-distinct tags within every set. -/
theorem nodup_step (g : Geometry) (op : Op) (address : Nat) (st : CacheState)
    (h : ∀ i, (tags (st.cache i)).Nodup) :
    ∀ i, (tags ((cacheOperation g op address st).cache i)).Nodup := by
  intro i
  by_cases hi : i = decodeSetNum g address
  case neg =>
    cases hcs : st.cache (decodeSetNum g address) with
    | nil =>
        rw [cacheOperation_empty g op address st hcs]
        simpa [updateCache, hi] using h i
    | cons first rest =>
        cases hfind : (first :: rest).find? (fun n => decide (n.tag = decodeTag g address)) with
        | some curr =>
            rw [cacheOperation_hit g op address st curr (by rw [hcs]; exact hfind)]
            simpa [updateCache, hi] using h i
        | none =>
            by_cases hlen : (first :: rest).length = g.linesPerSet
            · rw [cacheOperation_miss_evict g op address st first rest hcs hfind hlen]
              simpa [updateCache, hi] using h i
            · rw [cacheOperation_miss_noevict g op address st first rest hcs hfind hlen]
              simpa [updateCache, hi] using h i
  case pos =>
    subst hi
    cases hcs : st.cache (decodeSetNum g address) with
    | nil =>
        rw [cacheOperation_empty g op address st hcs]
        simp [updateCache, tags]
    | cons first rest =>
        have hold := h (decodeSetNum g address)
        rw [hcs] at hold
        cases hfind : (first :: rest).find? (fun n => decide (n.tag = decodeTag g address)) with
        | some curr =>
            rw [cacheOperation_hit g op address st curr (by rw [hcs]; exact hfind)]
            obtain ⟨l₁, l₂, hl, _, _, he⟩ :=
              find_eraseP_split (fun n => decide (n.tag = decodeTag g address))
                (first :: rest) curr hfind
            simp only [updateCache, if_pos rfl, if_true, eq_self_iff_true, hcs, he]
            rw [hl] at hold
            simp only [tags, List.map_append, List.map_cons, List.map_singleton] at hold ⊢
            rw [List.nodup_append_comm]
            simpa [List.nodup_middle] using hold
        | none =>
            have hfresh : ∀ n ∈ first :: rest, ¬ n.tag = decodeTag g address := by
              intro n hn
              have := List.find?_eq_none.mp hfind n hn
              simpa using this
            by_cases hlen : (first :: rest).length = g.linesPerSet
            · rw [cacheOperation_miss_evict g op address st first rest hcs hfind hlen]
              simp only [updateCache, if_pos rfl, if_true, eq_self_iff_true]
              refine nodup_tags_append_singleton rest _ ?_ ?_
              · have : (tags (first :: rest)).Nodup := hold
                simpa [tags] using this.of_cons
              · intro n hn
                exact hfresh n (List.mem_cons_of_mem first hn)
            · rw [cacheOperation_miss_noevict g op address st first rest hcs hfind hlen]
              simp only [updateCache, if_pos rfl, if_true, eq_self_iff_true]
              exact nodup_tags_append_singleton (first :: rest) _ hold hfresh

/-- C6: distinct-tags invariant — in every state reachable by replaying a
trace from the empty cache, the tags of the resident lines within each set
are pairwise distinct. -/
theorem tags_pairwise_distinct (g : Geometry) (trace : List (Op × Nat)) :
    ∀ i, (tags ((mainProcess g trace).cache i)).Nodup := by
  have main : ∀ (trace : List (Op × Nat)) (st : CacheState),
      (∀ i, (tags (st.cache i)).Nodup) →
      ∀ i, (tags ((trace.foldl (fun st r => cacheOperation g r.1 r.2 st) st).cache i)).Nodup := by
    intro trace
    induction trace with
    | nil => intro st h; simpa using h
    | cons r trace ih =>
        intro st h
        simp only [List.foldl_cons]
        exact ih (cacheOperation g r.1 r.2 st) (nodup_step g r.1 r.2 st h)
  exact main trace initializeCache (by simp [initializeCache, tags])

/-- Number of dirty lines resident in one set. -/
def dirtyCount (l : List Node) : Nat := l.countP (fun n => n.dirty)

/-- Total number of dirty resident lines over the sets with index below `n`. -/
def totalDirty (c : Nat → List Node) : Nat → Nat
  | 0 => 0
  | n + 1 => totalDirty c n + dirtyCount (c n)

/-- Effect on the dirty-line total of overwriting the set at index `i`. -/
theorem totalDirty_update (c : Nat → List Node) (i : Nat) (v : List Node) :
    ∀ n, totalDirty (updateCache c i v) n + (if i < n then dirtyCount (c i) else 0) =
      totalDirty c n + (if i < n then dirtyCount v else 0) := by
  intro n
  induction n with
  | zero => simp [totalDirty]
  | succ n ih =>
      by_cases hni : n = i
      · subst hni
        have hnn : ¬ n < n := lt_irrefl n
        rw [if_neg hnn, if_neg hnn] at ih
        simp only [totalDirty, updateCache, if_pos rfl, if_true, eq_self_iff_true]
        rw [if_pos (Nat.lt_succ_self n), if_pos (Nat.lt_succ_self n)]
        omega
      · simp only [totalDirty, updateCache, if_neg hni]
        by_cases hlt : i < n
        · rw [if_pos hlt, if_pos hlt] at ih
          rw [if_pos (Nat.lt_succ_of_lt hlt), if_pos (Nat.lt_succ_of_lt hlt)]
          omega
        · have hns : ¬ i < n + 1 := by omega
          rw [if_neg hlt, if_neg hlt] at ih
          rw [if_neg hns, if_neg hns]
          omega

/-- The empty cache has no dirty lines. -/
theorem totalDirty_empty : ∀ n, totalDirty (fun _ => []) n = 0
  | 0 => rfl
  | n + 1 => by simp [totalDirty, totalDirty_empty n, dirtyCount]

/-- The decoded set index is below the set count `2 ^ setBit`. -/
theorem decodeSetNum_lt (g : Geometry) (address : Nat) :
    decodeSetNum g address < 1 <<< g.setBit := by
  have h1 : decodeSetNum g address ≤ (1 <<< g.setBit) - 1 := Nat.and_le_right
  have h2 : 0 < 1 <<< g.setBit := by
    rw [Nat.shiftLeft_eq]
    positivity
  omega

/-- `dirty_bytes` always equals `blockByteNum` times the number of dirty
resident lines. -/
def DirtyInv (g : Geometry) (st : CacheState) : Prop :=
  st.stats.dirty_bytes = (blockByteNum g : Int) * totalDirty st.cache (1 <<< g.setBit)

/-- Transfer of the dirty-bytes invariant through one set overwrite whose
byte delta matches the dirty-count delta. -/
theorem dirtyInv_update (g : Geometry) (st : CacheState) (i : Nat) (v : List Node) (db : Int)
    (hidx : i < 1 <<< g.setBit)
    (hdb : db = st.stats.dirty_bytes + (blockByteNum g : Int) *
      ((dirtyCount v : Int) - (dirtyCount (st.cache i) : Int)))
    (h : DirtyInv g st) :
    db = (blockByteNum g : Int) * totalDirty (updateCache st.cache i v) (1 <<< g.setBit) := by
  have hF1 := totalDirty_update st.cache i v (1 <<< g.setBit)
  rw [if_pos hidx, if_pos hidx] at hF1
  have hF2 : (totalDirty (updateCache st.cache i v) (1 <<< g.setBit) : Int) =
      (totalDirty st.cache (1 <<< g.setBit) : Int) + (dirtyCount v : Int) -
        (dirtyCount (st.cache i) : Int) := by omega
  rw [hdb, show st.stats.dirty_bytes =
    (blockByteNum g : Int) * totalDirty st.cache (1 <<< g.setBit) from h, hF2]
  ring

/-- One access preserves the dirty-bytes invariant. -/
theorem dirtyInv_step (g : Geometry) (op : Op) (address : Nat) (st : CacheState)
    (h : DirtyInv g st) : DirtyInv g (cacheOperation g op address st) := by
  have hidx := decodeSetNum_lt g address
  cases hcs : st.cache (decodeSetNum g address) with
  | nil =>
      rw [cacheOperation_empty g op address st hcs]
      apply dirtyInv_update g st _ _ _ hidx ?_ h
      rw [hcs]
      rcases op with _ | _ <;> simp [dirtyCount] <;> first | (push_cast; ring1) | (right; first | trivial | (push_cast; omega)) | omega
  | cons first rest =>
      cases hfind : (first :: rest).find? (fun n => decide (n.tag = decodeTag g address)) with
      | some curr =>
          rw [cacheOperation_hit g op address st curr (by rw [hcs]; exact hfind)]
          obtain ⟨l₁, l₂, hl, _, _, he⟩ :=
            find_eraseP_split (fun n => decide (n.tag = decodeTag g address))
              (first :: rest) curr hfind
          apply dirtyInv_update g st _ _ _ hidx ?_ h
          rw [hcs, he, hl]
          simp only [dirtyCount, List.countP_append, List.countP_cons, List.countP_nil]
          rcases op with _ | _ <;> cases hcd : curr.dirty <;>
            simp [hcd] <;> first | (push_cast; ring1) | (right; first | trivial | (push_cast; omega)) | omega
      | none =>
          by_cases hlen : (first :: rest).length = g.linesPerSet
          · rw [cacheOperation_miss_evict g op address st first rest hcs hfind hlen]
            apply dirtyInv_update g st _ _ _ hidx ?_ h
            rw [hcs]
            simp only [dirtyCount, List.countP_append, List.countP_cons, List.countP_nil]
            rcases op with _ | _ <;> cases hfd : first.dirty <;>
              simp [hfd] <;> first | (push_cast; ring1) | (right; first | trivial | (push_cast; omega)) | omega
          · rw [cacheOperation_miss_noevict g op address st first rest hcs hfind hlen]
            apply dirtyInv_update g st _ _ _ hidx ?_ h
            rw [hcs]
            simp only [dirtyCount, List.countP_append, List.countP_cons, List.countP_nil]
            rcases op with _ | _ <;> simp <;> first | (push_cast; ring1) | (right; first | trivial | (push_cast; omega)) | omega

/-- The dirty-bytes invariant holds in every reachable state. -/
theorem dirtyInv_replay (g : Geometry) (trace : List (Op × Nat)) :
    DirtyInv g (mainProcess g trace) := by
  have main : ∀ (trace : List (Op × Nat)) (st : CacheState),
      DirtyInv g st →
      DirtyInv g (trace.foldl (fun st r => cacheOperation g r.1 r.2 st) st) := by
    intro trace
    induction trace with
    | nil => intro st h; simpa using h
    | cons r trace ih =>
        intro st h
        simp only [List.foldl_cons]
        exact ih (cacheOperation g r.1 r.2 st) (dirtyInv_step g r.1 r.2 st h)
  apply main trace initializeCache
  show (0 : Int) = (blockByteNum g : Int) * totalDirty (fun _ => []) (1 <<< g.setBit)
  rw [totalDirty_empty]
  simp

/-- C4: an access that evicts a dirty line (miss in a full set whose LRU
front line is dirty) adds exactly `blockByteNum` to `dirty_evictions` and
subtracts exactly `blockByteNum` from `dirty_bytes` — apart from the
`blockByteNum` separately added when the incoming access is a Store — and
`dirty_bytes` is never negative in any state reachable from the empty
cache. -/
theorem dirty_eviction_accounting (g : Geometry) :
    (∀ (op : Op) (address : Nat) (st : CacheState) (first : Node) (rest : List Node),
      st.cache (decodeSetNum g address) = first :: rest →
      (first :: rest).find? (fun n => decide (n.tag = decodeTag g address)) = none →
      (first :: rest).length = g.linesPerSet →
      first.dirty = true →
      (cacheOperation g op address st).stats.dirty_evictions =
        st.stats.dirty_evictions + blockByteNum g ∧
      (cacheOperation g op address st).stats.dirty_bytes =
        st.stats.dirty_bytes - (blockByteNum g : Int) +
          (if op = Op.store then (blockByteNum g : Int) else 0)) ∧
    ∀ trace : List (Op × Nat), 0 ≤ (mainProcess g trace).stats.dirty_bytes := by
  constructor
  · intro op address st first rest hcs hfind hlen hfd
    rw [cacheOperation_miss_evict g op address st first rest hcs hfind hlen]
    refine ⟨by simp [hfd], ?_⟩
    simp only [hfd, if_true]
    ring1
  · intro trace
    have h := dirtyInv_replay g trace
    rw [show (mainProcess g trace).stats.dirty_bytes =
      (blockByteNum g : Int) *
        totalDirty (mainProcess g trace).cache (1 <<< g.setBit) from h]
    positivity

/-- Witness for C4: a load that evicts the dirty line with tag 0 from a full
one-line set, and non-negativity after the empty trace. -/
theorem dirty_eviction_accounting_witness :
    ((cacheOperation ⟨0, 0, 1⟩ Op.load 1
        ⟨fun _ => [⟨0, true⟩], ⟨0, 0, 0, 1, 0⟩⟩).stats.dirty_evictions =
      (⟨fun _ => [⟨0, true⟩], ⟨0, 0, 0, 1, 0⟩⟩ : CacheState).stats.dirty_evictions +
        blockByteNum ⟨0, 0, 1⟩ ∧
    (cacheOperation ⟨0, 0, 1⟩ Op.load 1
        ⟨fun _ => [⟨0, true⟩], ⟨0, 0, 0, 1, 0⟩⟩).stats.dirty_bytes =
      (⟨fun _ => [⟨0, true⟩], ⟨0, 0, 0, 1, 0⟩⟩ : CacheState).stats.dirty_bytes -
        (blockByteNum ⟨0, 0, 1⟩ : Int) +
        (if Op.load = Op.store then (blockByteNum ⟨0, 0, 1⟩ : Int) else 0)) ∧
    0 ≤ (mainProcess ⟨0, 0, 1⟩ []).stats.dirty_bytes :=
  ⟨(dirty_eviction_accounting ⟨0, 0, 1⟩).1 Op.load 1
      ⟨fun _ => [⟨0, true⟩], ⟨0, 0, 0, 1, 0⟩⟩ ⟨0, true⟩ [] (by decide) (by decide)
      (by decide) rfl,
   (dirty_eviction_accounting ⟨0, 0, 1⟩).2 []⟩

end CacheSim
